import Mathlib

/-!
Verification of the cloud-field synthesis pipeline (`cloudfield.py`).

Fields are modelled as lists of rationals (flattened pixel grids) for the
purely pointwise / global-reduction routines (`_clip_field`,
`shift_mean_lave`, `lave_scaling_exact`, `stacked_field`), and as functions
`ℕ → ℕ → ℚ` for the genuinely two-dimensional routines (`_find_edges`
Sobel filtering, `_random_at_scale` bilinear interpolation).  The random
layers drawn by `np.random.rand` are passed in as explicit parameters.
Functions whose Python counterparts can raise (an `assert`, or
`np.quantile` on an empty selection) return `Option`.
-/

attribute [local semireducible] Rat.mul Rat.inv Rat.add Rat.sub

namespace CloudField

/-! ### List minimum / maximum helpers -/

/-- Minimum of a list of rationals (`np.min`); 0 on the empty list. -/
def listMin : List ℚ → ℚ
  | [] => 0
  | a :: l => l.foldl min a

/-- Maximum of a list of rationals (`np.max`); 0 on the empty list. -/
def listMax : List ℚ → ℚ
  | [] => 0
  | a :: l => l.foldl max a

/-! ### numpy `quantile` (linear interpolation method) -/

/-- Ascending sort, as `np.sort`. -/
def sortAsc (l : List ℚ) : List ℚ := l.insertionSort (fun a b => a ≤ b)

/-- `np.quantile(l, q)` with the default linear-interpolation method:
with `s` the ascending sort of `l` and `h = q*(n-1)`, the value is
`s[⌊h⌋] + (h - ⌊h⌋) * (s[⌊h⌋+1] - s[⌊h⌋])` (upper index clipped to `n-1`).
Junk value 0 on the empty list (where numpy raises; callers that can see
an empty list model the raise with `Option`). -/
def quantile (l : List ℚ) (q : ℚ) : ℚ :=
  let s := sortAsc l
  let n := l.length
  let h : ℚ := q * ((n : ℚ) - 1)
  let lo : ℕ := (Int.floor h).toNat
  let hi : ℕ := min (lo + 1) (n - 1)
  s.getD lo 0 + (h - (lo : ℚ)) * (s.getD hi 0 - s.getD lo 0)

/-! ### `_clip_field` (QuantileClassifier) -/

/-- `_clip_field(field, clear_frac)`.  The mask is all ones with pixels
strictly above the `clear_frac`-quantile set to 0; the trailing
`assert np.isclose(clear_frac, sum(mask)/size, rtol=1e-3)` (numpy default
`atol = 1e-8`, relative term measured against the second argument) is
modelled by returning `none` when it fails. -/
def clip_field (field : List ℚ) (clear_frac : ℚ) : Option (List ℚ) :=
  let quant := quantile field clear_frac
  let field_out := field.map (fun v => if quant < v then (0 : ℚ) else 1)
  let realized := field_out.sum / (field.length : ℚ)
  if |clear_frac - realized| ≤ 1 / 100000000 + (1 / 1000) * |realized| then
    some field_out
  else none

/-! ### `stacked_field` (StackedFieldSynthesizer)

The per-scale random layers produced by `_random_at_scale` are passed in
explicitly as `layers`; the synthesis then accumulates `weight * layer`
into a zero field and min-max normalizes. -/

/-- Accumulation loop of `stacked_field`: starting from `np.zeros(n)`,
`field += i_field * weight` for each `(layer, weight)` pair. -/
def accumulate (n : ℕ) (layers : List (List ℚ)) (weights : List ℚ) : List ℚ :=
  (layers.zip weights).foldl
    (fun acc lw => List.zipWith (fun a x => a + x * lw.2) acc lw.1)
    (List.replicate n 0)

/-- Final normalization of `stacked_field`:
`field = field - np.min(field); field = field / np.max(field)`. -/
def normalize (f : List ℚ) : List ℚ :=
  let shifted := f.map (fun v => v - listMin f)
  shifted.map (fun v => v / listMax shifted)

/-- `stacked_field` with the random layers supplied explicitly. -/
def stacked_field (n : ℕ) (layers : List (List ℚ)) (weights : List ℚ) : List ℚ :=
  normalize (accumulate n layers weights)

/-! ### `shift_mean_lave` (DistributionRemapper, variant A) -/

/-- `field[field < 1]`: the sub-unit (non-clear) pixel values. -/
def subUnit (field : List ℚ) : List ℚ := field.filter (fun v => decide (v < 1))

/-- The linear rescale step of `shift_mean_lave`:
`(field - field_min) / (field_max - field_min) * (1 - ktmin) + ktmin`
with `field_min`/`field_max` the `min_quant`/`max_quant` quantiles of the
sub-unit pixels. -/
def smlRescaled (field : List ℚ) (ktmin min_quant max_quant : ℚ) : List ℚ :=
  let field_max := quantile (subUnit field) max_quant
  let field_min := quantile (subUnit field) min_quant
  field.map (fun v => (v - field_min) / (field_max - field_min) * (1 - ktmin) + ktmin)

/-- The two clip steps: `field_out[field_out > 1] = 1` then
`field_out[field_out < 0] = 0`. -/
def smlClipped (field : List ℚ) (ktmin min_quant max_quant : ℚ) : List ℚ :=
  ((smlRescaled field ktmin min_quant max_quant).map
      (fun v => if 1 < v then (1 : ℚ) else v)).map
    (fun v => if v < 0 then (0 : ℚ) else v)

/-- `diff_sum = field.size * ktmean - np.sum(field_out == 1)`. -/
def smlDiffSum (field : List ℚ) (ktmean ktmin min_quant max_quant : ℚ) : ℚ :=
  (field.length : ℚ) * ktmean -
    ((smlClipped field ktmin min_quant max_quant).countP (fun v => decide (v = 1)) : ℚ)

/-- `tgt_mean = diff_sum / np.sum(field_out < 1)`. -/
def smlTgtMean (field : List ℚ) (ktmean ktmin min_quant max_quant : ℚ) : ℚ :=
  smlDiffSum field ktmean ktmin min_quant max_quant /
    ((smlClipped field ktmin min_quant max_quant).countP (fun v => decide (v < 1)) : ℚ)

/-- `current_cloud_mean = np.mean(field_out[field_out < 1])`. -/
def smlCloudMean (field : List ℚ) (ktmin min_quant max_quant : ℚ) : ℚ :=
  let cloudvals := (smlClipped field ktmin min_quant max_quant).filter (fun v => decide (v < 1))
  cloudvals.sum / (cloudvals.length : ℚ)

/-- `shift_mean_lave(field, ktmean, max_overshoot, ktmin, min_quant, max_quant)`.
Returns `none` exactly when `np.quantile` raises on the empty selection
`field[field < 1]`; `max_overshoot` is accepted but unused, as in the
source. -/
def shift_mean_lave (field : List ℚ)
    (ktmean max_overshoot ktmin min_quant max_quant : ℚ) : Option (List ℚ) :=
  if subUnit field = [] then none
  else if 0 < smlDiffSum field ktmean ktmin min_quant max_quant then
    some ((smlClipped field ktmin min_quant max_quant).map
      (fun v => if v = 1 then v else
        smlTgtMean field ktmean ktmin min_quant max_quant /
          smlCloudMean field ktmin min_quant max_quant * v))
  else some (smlClipped field ktmin min_quant max_quant)

/-! ### `lave_scaling_exact` (DistributionRemapper, variant B)

Positional (index-based) model: fields, the 0/1-valued `clear_mask` and the
boolean `edge_mask` are flattened lists of equal length, and numpy's
boolean-mask selections become filters over `List.range field.length`. -/

/-- `field[clear_mask == 0]`. -/
def lave_sel (field clear_mask : List ℚ) : List ℚ :=
  ((List.range field.length).filter
      (fun i => decide (clear_mask.getD i 0 = 0))).map (fun i => field.getD i 0)

/-- `field_max = np.quantile(field[clear_mask == 0], max_quant)`. -/
def lave_field_max (field clear_mask : List ℚ) (max_quant : ℚ) : ℚ :=
  quantile (lave_sel field clear_mask) max_quant

/-- The two clip steps `x[x > 1] = 1` then `x[x < 0] = 0` applied to one value. -/
def clip01 (v : ℚ) : ℚ :=
  let w := if 1 < v then (1 : ℚ) else v
  if w < 0 then 0 else w

/-- `clouds3 = clip(1 - field*(1-kt1pct)/field_max)`. -/
def lave_clouds3 (field clear_mask : List ℚ) (kt1pct max_quant : ℚ) : List ℚ :=
  field.map (fun v =>
    clip01 (1 - v * (1 - kt1pct) / lave_field_max field clear_mask max_quant))

/-- `mean_c3 = np.mean(clouds3)`. -/
def lave_mean_c3 (field clear_mask : List ℚ) (kt1pct max_quant : ℚ) : ℚ :=
  (lave_clouds3 field clear_mask kt1pct max_quant).sum /
    ((lave_clouds3 field clear_mask kt1pct max_quant).length : ℚ)

/-- Cloud-enhancement field
`ce = 1 + (clouds3/mean_c3 - nmin_c3)/nrange_c3 * (ktmax - 1)` where
`nmin_c3 = min(clouds3)/mean_c3` and
`nrange_c3 = max(clouds3)/mean_c3 - nmin_c3`. -/
def lave_ce (field clear_mask : List ℚ) (ktmax kt1pct max_quant : ℚ) : List ℚ :=
  let c3 := lave_clouds3 field clear_mask kt1pct max_quant
  let mean_c3 := lave_mean_c3 field clear_mask kt1pct max_quant
  let nmin_c3 := listMin c3 / mean_c3
  let nrange_c3 := listMax c3 / mean_c3 - nmin_c3
  c3.map (fun c => 1 + (c / mean_c3 - nmin_c3) / nrange_c3 * (ktmax - 1))

/-- `cloud_mask = (np.bitwise_or(clear_mask > 0, edge_mask)) == 0` at index `i`. -/
def lave_cloudP (clear_mask : List ℚ) (edge_mask : List Bool) (i : ℕ) : Bool :=
  !(decide (0 < clear_mask.getD i 0) || edge_mask.getD i false)

/-- `diff_sum = field.size*ktmean - np.sum(clear_mask)
- np.sum(ce[np.bitwise_and(edge_mask > 0, clear_mask == 0)])`. -/
def lave_diff_sum (field clear_mask : List ℚ) (edge_mask : List Bool)
    (ktmean ktmax kt1pct max_quant : ℚ) : ℚ :=
  (field.length : ℚ) * ktmean - clear_mask.sum -
    (((List.range field.length).filter
        (fun i => edge_mask.getD i false && decide (clear_mask.getD i 0 = 0))).map
      (fun i => (lave_ce field clear_mask ktmax kt1pct max_quant).getD i 0)).sum

/-- `tgt_cloud_mean = diff_sum / np.sum(cloud_mask)`. -/
def lave_tgt_cloud_mean (field clear_mask : List ℚ) (edge_mask : List Bool)
    (ktmean ktmax kt1pct max_quant : ℚ) : ℚ :=
  lave_diff_sum field clear_mask edge_mask ktmean ktmax kt1pct max_quant /
    (((List.range field.length).countP (lave_cloudP clear_mask edge_mask)) : ℚ)

/-- `current_cloud_mean = np.mean(clouds3[cloud_mask])`. -/
def lave_current_cloud_mean (field clear_mask : List ℚ) (edge_mask : List Bool)
    (kt1pct max_quant : ℚ) : ℚ :=
  let vals := ((List.range field.length).filter (lave_cloudP clear_mask edge_mask)).map
    (fun i => (lave_clouds3 field clear_mask kt1pct max_quant).getD i 0)
  vals.sum / (vals.length : ℚ)

/-- `clouds4`: `clouds3` scaled by `tgt_cloud_mean / current_cloud_mean`
when `diff_sum > 0`, else an unscaled copy. -/
def lave_clouds4 (field clear_mask : List ℚ) (edge_mask : List Bool)
    (ktmean ktmax kt1pct max_quant : ℚ) : List ℚ :=
  if 0 < lave_diff_sum field clear_mask edge_mask ktmean ktmax kt1pct max_quant then
    (lave_clouds3 field clear_mask kt1pct max_quant).map
      (fun v => lave_tgt_cloud_mean field clear_mask edge_mask ktmean ktmax kt1pct max_quant /
        lave_current_cloud_mean field clear_mask edge_mask kt1pct max_quant * v)
  else lave_clouds3 field clear_mask kt1pct max_quant

/-- `lave_scaling_exact(field, clear_mask, edge_mask, ktmean, ktmax, kt1pct,
max_quant)`: the final composition `clouds5` overwrites edge pixels with
`ce` and then clear pixels with 1 (clear wins).  Returns `none` exactly
when `np.quantile` raises on the empty selection `field[clear_mask == 0]`. -/
def lave_scaling_exact (field clear_mask : List ℚ) (edge_mask : List Bool)
    (ktmean ktmax kt1pct max_quant : ℚ) : Option (List ℚ) :=
  if lave_sel field clear_mask = [] then none
  else some ((List.range field.length).map (fun i =>
    if 0 < clear_mask.getD i 0 then (1 : ℚ)
    else if edge_mask.getD i false then
      (lave_ce field clear_mask ktmax kt1pct max_quant).getD i 0
    else (lave_clouds4 field clear_mask edge_mask ktmean ktmax kt1pct max_quant).getD i 0))

/-! ### `_find_edges` (EdgeDetector)

2-D grids are functions `ℕ → ℕ → ℚ` together with their dimensions.
`scipy.ndimage.sobel(input)` uses the default `axis=-1`: it correlates
with `[-1, 0, 1]` along the last axis and with `[1, 2, 1]` along the
other axis, under the default `reflect` boundary mode. -/

/-- The `reflect` boundary mode of `scipy.ndimage`
(`d c b a | a b c d | d c b a`): `-1 ↦ 0`, `m ↦ m-1`. -/
def reflectIdx (m : ℕ) (i : ℤ) : ℕ :=
  if i < 0 then (-(i + 1)).toNat
  else if (m : ℤ) ≤ i then (2 * (m : ℤ) - 1 - i).toNat
  else i.toNat

/-- `correlate1d` with weights `[-1, 0, 1]` along axis 1 (columns). -/
def derivAx1 (f : ℕ → ℕ → ℚ) (n : ℕ) : ℕ → ℕ → ℚ :=
  fun i j => -f i (reflectIdx n ((j : ℤ) - 1)) + f i (reflectIdx n ((j : ℤ) + 1))

/-- `correlate1d` with weights `[1, 2, 1]` along axis 0 (rows). -/
def smoothAx0 (f : ℕ → ℕ → ℚ) (m : ℕ) : ℕ → ℕ → ℚ :=
  fun i j => f (reflectIdx m ((i : ℤ) - 1)) j + 2 * f i j + f (reflectIdx m ((i : ℤ) + 1)) j

/-- `correlate1d` with weights `[-1, 0, 1]` along axis 0 (rows). -/
def derivAx0 (f : ℕ → ℕ → ℚ) (m : ℕ) : ℕ → ℕ → ℚ :=
  fun i j => -f (reflectIdx m ((i : ℤ) - 1)) j + f (reflectIdx m ((i : ℤ) + 1)) j

/-- `correlate1d` with weights `[1, 2, 1]` along axis 1 (columns). -/
def smoothAx1 (f : ℕ → ℕ → ℚ) (n : ℕ) : ℕ → ℕ → ℚ :=
  fun i j => f i (reflectIdx n ((j : ℤ) - 1)) + 2 * f i j + f i (reflectIdx n ((j : ℤ) + 1))

/-- `scipy.ndimage.sobel(f)` with the default `axis=-1` on an `m × n`
grid: derivative along the last axis, `[1,2,1]` smoothing along axis 0. -/
def sobel_last (f : ℕ → ℕ → ℚ) (m n : ℕ) : ℕ → ℕ → ℚ :=
  smoothAx0 (derivAx1 f n) m

/-- `scipy.ndimage.sobel(f, axis=0)`: derivative along axis 0,
`[1,2,1]` smoothing along the last axis. -/
def sobel_ax0 (f : ℕ → ℕ → ℚ) (m n : ℕ) : ℕ → ℕ → ℚ :=
  smoothAx1 (derivAx0 f m) n

/-- The edge map computed by `_find_edges`: `edges = np.abs(sobel(base_mask))`. -/
def find_edges (f : ℕ → ℕ → ℚ) (m n : ℕ) : ℕ → ℕ → ℚ :=
  fun i j => |sobel_last f m n i j|

/-! ### `_random_at_scale` (MultiScaleRandomFieldGenerator)

The coarse `np.random.rand(r, c)` grid is passed in as `g`.  Both source
and query coordinate grids are `np.linspace(0, 1, size)`, so the source
nodes sit at `k/(r-1)` and the interpolation cell of a query `t` is found
by flooring `t*(r-1)` (clipped into `[0, r-2]`). -/

/-- Index of the interpolation cell containing query coordinate `t`. -/
def cellIdx (m : ℕ) (t : ℚ) : ℕ :=
  min (Int.toNat (Int.floor (t * ((m : ℚ) - 1)))) (m - 2)

/-- Barycentric coordinate of query `t` inside its interpolation cell. -/
def fracPart (m : ℕ) (t : ℚ) : ℚ :=
  t * ((m : ℚ) - 1) - (cellIdx m t : ℚ)

/-- Bilinear interpolation of the `r × c` grid `g` (nodes at
`linspace(0,1,r) × linspace(0,1,c)`) at the point `(t, u) ∈ [0,1]²`,
as `RegularGridInterpolator(..., method='linear')`. -/
def bilinear (g : ℕ → ℕ → ℚ) (r c : ℕ) (t u : ℚ) : ℚ :=
  (1 - fracPart r t) * (1 - fracPart c u) * g (cellIdx r t) (cellIdx c u) +
  (1 - fracPart r t) * fracPart c u * g (cellIdx r t) (cellIdx c u + 1) +
  fracPart r t * (1 - fracPart c u) * g (cellIdx r t + 1) (cellIdx c u) +
  fracPart r t * fracPart c u * g (cellIdx r t + 1) (cellIdx c u + 1)

/-- `_random_at_scale(rand_size=(r,c), final_size=(R,C))` with the coarse
random grid `g` supplied explicitly: the interpolated output at pixel
`(I, J)` queries the interpolant at `(I/(R-1), J/(C-1))`. -/
def random_at_scale (g : ℕ → ℕ → ℚ) (r c R C : ℕ) : ℕ → ℕ → ℚ :=
  fun I J => bilinear g r c ((I : ℚ) / ((R : ℚ) - 1)) ((J : ℚ) / ((C : ℚ) - 1))

/-! ### Helper lemmas: folds, `listMin`/`listMax`, `getD` -/

theorem foldlMin_le_init (l : List ℚ) (a : ℚ) : l.foldl min a ≤ a := by
  induction l generalizing a with
  | nil => simp
  | cons b l ih => exact le_trans (ih (min a b)) (min_le_left a b)

theorem foldlMin_le_mem (l : List ℚ) (a x : ℚ) (hx : x ∈ l) : l.foldl min a ≤ x := by
  induction l generalizing a with
  | nil => cases hx
  | cons b l ih =>
    rcases List.mem_cons.mp hx with h | h
    · subst h
      exact le_trans (foldlMin_le_init l (min a x)) (min_le_right a x)
    · exact ih (min a b) h

theorem foldlMin_choice (l : List ℚ) (a : ℚ) : l.foldl min a = a ∨ l.foldl min a ∈ l := by
  induction l generalizing a with
  | nil => left; rfl
  | cons b l ih =>
    rcases ih (min a b) with h | h
    · rcases min_choice a b with hab | hab
      · left; rw [List.foldl_cons, h, hab]
      · right; rw [List.foldl_cons, h, hab]; exact List.mem_cons_self b l
    · right; exact List.mem_cons_of_mem b h

theorem le_foldlMin (l : List ℚ) (a c : ℚ) (h1 : c ≤ a) (h2 : ∀ x ∈ l, c ≤ x) :
    c ≤ l.foldl min a := by
  induction l generalizing a with
  | nil => exact h1
  | cons b l ih =>
    exact ih (min a b) (le_min h1 (h2 b (List.mem_cons_self b l)))
      (fun x hx => h2 x (List.mem_cons_of_mem b hx))

theorem listMin_le {l : List ℚ} {x : ℚ} (hx : x ∈ l) : listMin l ≤ x := by
  cases l with
  | nil => cases hx
  | cons a l =>
    rcases List.mem_cons.mp hx with h | h
    · subst h; exact foldlMin_le_init l x
    · exact foldlMin_le_mem l a x h

theorem listMin_mem {l : List ℚ} (h : l ≠ []) : listMin l ∈ l := by
  cases l with
  | nil => exact absurd rfl h
  | cons a l =>
    rcases foldlMin_choice l a with h' | h'
    · rw [listMin, h']; exact List.mem_cons_self a l
    · exact List.mem_cons_of_mem a h'

theorem le_listMin {l : List ℚ} {c : ℚ} (h : l ≠ []) (h2 : ∀ x ∈ l, c ≤ x) :
    c ≤ listMin l := by
  cases l with
  | nil => exact absurd rfl h
  | cons a l =>
    exact le_foldlMin l a c (h2 a (List.mem_cons_self a l))
      (fun x hx => h2 x (List.mem_cons_of_mem a hx))

theorem foldlMax_init_le (l : List ℚ) (a : ℚ) : a ≤ l.foldl max a := by
  induction l generalizing a with
  | nil => simp
  | cons b l ih => exact le_trans (le_max_left a b) (ih (max a b))

theorem foldlMax_mem_le (l : List ℚ) (a x : ℚ) (hx : x ∈ l) : x ≤ l.foldl max a := by
  induction l generalizing a with
  | nil => cases hx
  | cons b l ih =>
    rcases List.mem_cons.mp hx with h | h
    · subst h
      exact le_trans (le_max_right a x) (foldlMax_init_le l (max a x))
    · exact ih (max a b) h

theorem foldlMax_choice (l : List ℚ) (a : ℚ) : l.foldl max a = a ∨ l.foldl max a ∈ l := by
  induction l generalizing a with
  | nil => left; rfl
  | cons b l ih =>
    rcases ih (max a b) with h | h
    · rcases max_choice a b with hab | hab
      · left; rw [List.foldl_cons, h, hab]
      · right; rw [List.foldl_cons, h, hab]; exact List.mem_cons_self b l
    · right; exact List.mem_cons_of_mem b h

theorem foldlMax_le (l : List ℚ) (a c : ℚ) (h1 : a ≤ c) (h2 : ∀ x ∈ l, x ≤ c) :
    l.foldl max a ≤ c := by
  induction l generalizing a with
  | nil => exact h1
  | cons b l ih =>
    exact ih (max a b) (max_le h1 (h2 b (List.mem_cons_self b l)))
      (fun x hx => h2 x (List.mem_cons_of_mem b hx))

theorem le_listMax {l : List ℚ} {x : ℚ} (hx : x ∈ l) : x ≤ listMax l := by
  cases l with
  | nil => cases hx
  | cons a l =>
    rcases List.mem_cons.mp hx with h | h
    · subst h; exact foldlMax_init_le l x
    · exact foldlMax_mem_le l a x h

theorem listMax_mem {l : List ℚ} (h : l ≠ []) : listMax l ∈ l := by
  cases l with
  | nil => exact absurd rfl h
  | cons a l =>
    rcases foldlMax_choice l a with h' | h'
    · rw [listMax, h']; exact List.mem_cons_self a l
    · exact List.mem_cons_of_mem a h'

theorem listMax_le {l : List ℚ} {c : ℚ} (h : l ≠ []) (h2 : ∀ x ∈ l, x ≤ c) :
    listMax l ≤ c := by
  cases l with
  | nil => exact absurd rfl h
  | cons a l =>
    exact foldlMax_le l a c (h2 a (List.mem_cons_self a l))
      (fun x hx => h2 x (List.mem_cons_of_mem a hx))

theorem listMin_map_mono (g : ℚ → ℚ) (hg : Monotone g) {l : List ℚ} (h : l ≠ []) :
    listMin (l.map g) = g (listMin l) := by
  have hmap : l.map g ≠ [] := by
    cases l with
    | nil => exact absurd rfl h
    | cons a l => simp
  apply le_antisymm
  · exact listMin_le (List.mem_map_of_mem g (listMin_mem h))
  · refine le_listMin hmap ?_
    intro y hy
    rcases List.mem_map.mp hy with ⟨x, hx, rfl⟩
    exact hg (listMin_le hx)

theorem listMax_map_mono (g : ℚ → ℚ) (hg : Monotone g) {l : List ℚ} (h : l ≠ []) :
    listMax (l.map g) = g (listMax l) := by
  have hmap : l.map g ≠ [] := by
    cases l with
    | nil => exact absurd rfl h
    | cons a l => simp
  apply le_antisymm
  · refine listMax_le hmap ?_
    intro y hy
    rcases List.mem_map.mp hy with ⟨x, hx, rfl⟩
    exact hg (le_listMax hx)
  · exact le_listMax (List.mem_map_of_mem g (listMax_mem h))

theorem getD_map (f : ℚ → ℚ) (l : List ℚ) (i : ℕ) (h : i < l.length) (d d' : ℚ) :
    (l.map f).getD i d = f (l.getD i d') := by
  induction l generalizing i with
  | nil => simp at h
  | cons a l ih =>
    cases i with
    | zero => rfl
    | succ i => exact ih i (by simpa using h)

theorem getD_range_map (f : ℕ → ℚ) (n i : ℕ) (h : i < n) (d : ℚ) :
    (((List.range n).map f).getD i d) = f i := by
  induction n with
  | zero => omega
  | succ n ih =>
    rcases Nat.lt_succ_iff_lt_or_eq.mp h with h' | h'
    · rw [List.range_succ, List.map_append, List.getD_append]
      · exact ih h'
      · simpa using h'
    · subst h'
      rw [List.range_succ, List.map_append]
      have hlen : ((List.range i).map f).length = i := by simp
      simp [List.getD_append_right, hlen, List.getD]

/-! ### Quantile bounds -/

theorem sortAsc_getD_mem (l : List ℚ) (k : ℕ) (hk : k < l.length) :
    (sortAsc l).getD k 0 ∈ l := by
  have hlen : (sortAsc l).length = l.length := List.length_insertionSort _ _
  have hk' : k < (sortAsc l).length := by rw [hlen]; exact hk
  have hEq : (sortAsc l).getD k 0 = (sortAsc l).get ⟨k, hk'⟩ := List.getD_eq_get _ _ hk'
  have : (sortAsc l).getD k 0 ∈ sortAsc l := by
    rw [hEq]; exact List.get_mem _ _ _
  exact (List.mem_insertionSort (fun a b => a ≤ b)).mp this

theorem quantile_bounds {l : List ℚ} (hl : l ≠ []) {q : ℚ} (h0 : 0 ≤ q) (h1 : q ≤ 1) :
    listMin l ≤ quantile l q ∧ quantile l q ≤ listMax l := by
  have hn : 0 < l.length := List.length_pos.mpr hl
  set n := l.length with hn_def
  set h : ℚ := q * ((n : ℚ) - 1) with hh_def
  have hn1 : (1 : ℚ) ≤ (n : ℚ) := by exact_mod_cast hn
  have hh0 : 0 ≤ h := mul_nonneg h0 (by linarith)
  have hh1 : h ≤ (n : ℚ) - 1 := by
    calc h = q * ((n : ℚ) - 1) := rfl
    _ ≤ 1 * ((n : ℚ) - 1) := by
        apply mul_le_mul_of_nonneg_right h1 (by linarith)
    _ = (n : ℚ) - 1 := one_mul _
  have hfl0 : 0 ≤ Int.floor h := Int.floor_nonneg.mpr hh0
  set lo : ℕ := (Int.floor h).toNat with hlo_def
  have hlocast : (lo : ℚ) = (Int.floor h : ℚ) := by
    rw [hlo_def]
    exact_mod_cast congrArg (fun z : ℤ => (z : ℚ)) (Int.toNat_of_nonneg hfl0)
  have hcast_n1 : ((n - 1 : ℕ) : ℚ) = (n : ℚ) - 1 := by
    have := Nat.cast_sub (R := ℚ) hn
    simpa using this
  have hlo_le : lo ≤ n - 1 := by
    have hfl_le : Int.floor h ≤ (n : ℤ) - 1 := by
      have : Int.floor h ≤ Int.floor ((n : ℚ) - 1) := Int.floor_le_floor hh1
      have heq : Int.floor ((n : ℚ) - 1) = (n : ℤ) - 1 := by
        rw [← hcast_n1, Int.floor_natCast]
        omega
      omega
    omega
  have hlo_lt : lo < n := by omega
  set s := sortAsc l with hs_def
  set A := s.getD lo 0 with hA_def
  set hi : ℕ := min (lo + 1) (n - 1) with hhi_def
  have hhi_lt : hi < n := by omega
  set B := s.getD hi 0 with hB_def
  have hAmem : A ∈ l := sortAsc_getD_mem l lo hlo_lt
  have hBmem : B ∈ l := sortAsc_getD_mem l hi hhi_lt
  have hfrac0 : 0 ≤ h - (lo : ℚ) := by
    rw [hlocast]; linarith [Int.floor_le h]
  have hfrac1 : h - (lo : ℚ) < 1 := by
    rw [hlocast]; linarith [Int.lt_floor_add_one h]
  have hq_eq : quantile l q = A + (h - (lo : ℚ)) * (B - A) := rfl
  constructor
  · have h1A : listMin l ≤ A := listMin_le hAmem
    have h1B : listMin l ≤ B := listMin_le hBmem
    rw [hq_eq]
    nlinarith [mul_nonneg hfrac0 (sub_nonneg.mpr h1B)]
  · have h2A : A ≤ listMax l := le_listMax hAmem
    have h2B : B ≤ listMax l := le_listMax hBmem
    rw [hq_eq]
    nlinarith [mul_nonneg hfrac0 (sub_nonneg.mpr (le_refl B))]

/-! ### Claim C1: classification direction of `_clip_field` -/

/-- C1 counterexample: on the field `[0, 1]` with clear fraction `1/2`, the
quantile is `1/2` and the pixel of value `1` is strictly greater than it,
yet `_clip_field` marks it `0` (cloudy), not `1` (clear) as the claim
states: the returned mask is `[1, 0]`, not `[0, 1]`. -/
theorem clip_field_classification_cex :
    clip_field [0, 1] (1 / 2) = some [1, 0] ∧
    quantile [0, 1] (1 / 2) < 1 ∧ ¬ (([1, 0] : List ℚ).getD 1 0 = 1) := by
  decide

/-- C1 (amended): `_clip_field` computes `q` as the `f`-quantile of the
field and returns a mask in which exactly the pixels with value strictly
greater than `q` are marked cloudy (0) and all other pixels are marked
clear (1). -/
theorem clip_field_classification (field : List ℚ) (f : ℚ) (m : List ℚ)
    (h : clip_field field f = some m) :
    m.length = field.length ∧
    ∀ i, i < field.length →
      ((m.getD i 0 = 1 ↔ field.getD i 0 ≤ quantile field f) ∧
       (m.getD i 0 = 0 ↔ quantile field f < field.getD i 0)) := by
  simp only [clip_field] at h
  split_ifs at h with hcond
  have hm := (Option.some.inj h).symm
  subst hm
  refine ⟨List.length_map _ _, ?_⟩
  intro i hi
  rw [getD_map _ _ _ hi 0 0]
  by_cases hqv : quantile field f < field.getD i 0
  · rw [if_pos hqv]
    constructor
    · constructor
      · intro h01; exact absurd h01 (by norm_num)
      · intro hle; exact absurd hqv (not_lt.mpr hle)
    · exact ⟨fun _ => hqv, fun _ => rfl⟩
  · rw [if_neg hqv]
    constructor
    · exact ⟨fun _ => not_lt.mp hqv, fun _ => rfl⟩
    · constructor
      · intro h10; exact absurd h10 (by norm_num)
      · intro hlt; exact absurd hlt hqv

/-- Witness for C1's amended theorem at the concrete input `[0, 1]`, `f = 1/2`. -/
theorem clip_field_classification_witness :
    ([1, 0] : List ℚ).length = ([0, 1] : List ℚ).length ∧
    ∀ i, i < ([0, 1] : List ℚ).length →
      ((([1, 0] : List ℚ).getD i 0 = 1 ↔
          ([0, 1] : List ℚ).getD i 0 ≤ quantile [0, 1] (1 / 2)) ∧
       (([1, 0] : List ℚ).getD i 0 = 0 ↔
          quantile [0, 1] (1 / 2) < ([0, 1] : List ℚ).getD i 0)) :=
  clip_field_classification [0, 1] (1 / 2) [1, 0] (by decide)

/-! ### Claim C7: tolerance check of `_clip_field` -/

theorem mask_sum_eq_countP (Q : ℚ) (l : List ℚ) :
    (l.map (fun v => if Q < v then (0 : ℚ) else 1)).sum
      = (l.countP (fun v => decide (v ≤ Q)) : ℚ) := by
  induction l with
  | nil => simp
  | cons a l ih =>
    by_cases hQ : Q < a
    · have hnle : ¬ (a ≤ Q) := not_le.mpr hQ
      simp [hQ, hnle, ih, List.countP_cons]
    · have hle : a ≤ Q := not_lt.mp hQ
      simp [hQ, hle, ih, List.countP_cons]
      ring

/-- C7 counterexample: on the field `[1, …, 10]` with `f = 999/2000`, the
realized clear fraction is `1/2`; the assert passes (numpy's `isclose`
has absolute slack `1e-8` and measures the relative term against the
realized fraction), so a mask is silently returned, yet the realized
fraction does NOT lie within relative tolerance `1e-3` of `f`:
`|1/2 - 999/2000| = 1/2000 > (1/1000)·(999/2000)`. -/
theorem clip_field_tolerance_cex :
    clip_field [1, 2, 3, 4, 5, 6, 7, 8, 9, 10] (999 / 2000)
        = some [1, 1, 1, 1, 1, 0, 0, 0, 0, 0] ∧
    ¬ (|([1, 1, 1, 1, 1, 0, 0, 0, 0, 0] : List ℚ).sum / (10 : ℚ) - 999 / 2000| ≤
        (1 / 1000) * |(999 / 2000 : ℚ)|) := by
  exact ⟨by decide, by decide⟩

/-- C7 (amended): whenever `_clip_field` returns a mask, the realized
clear fraction `r` (count of pixels `≤` the quantile, over the total
pixel count) satisfies numpy's `isclose(f, r, rtol=1e-3)` tolerance
`|f - r| ≤ 1e-8 + 1e-3·|r|` — absolute slack `1e-8` included and the
relative term measured against the realized fraction, not against `f`;
otherwise the assert fails and no mask is returned. -/
theorem clip_field_tolerance (field : List ℚ) (f : ℚ) (m : List ℚ)
    (h : clip_field field f = some m) :
    |f - (field.countP (fun v => decide (v ≤ quantile field f)) : ℚ) / (field.length : ℚ)| ≤
      1 / 100000000 +
        (1 / 1000) *
          |(field.countP (fun v => decide (v ≤ quantile field f)) : ℚ) / (field.length : ℚ)| := by
  simp only [clip_field] at h
  rw [mask_sum_eq_countP] at h
  split_ifs at h with hcond
  exact hcond

/-- Witness for C7's amended theorem at the concrete input `[1, …, 10]`,
`f = 999/2000`. -/
theorem clip_field_tolerance_witness :
    |(999 / 2000 : ℚ) -
        (([1, 2, 3, 4, 5, 6, 7, 8, 9, 10] : List ℚ).countP
            (fun v => decide (v ≤ quantile [1, 2, 3, 4, 5, 6, 7, 8, 9, 10] (999 / 2000))) : ℚ) /
          (([1, 2, 3, 4, 5, 6, 7, 8, 9, 10] : List ℚ).length : ℚ)| ≤
      1 / 100000000 +
        (1 / 1000) *
          |(([1, 2, 3, 4, 5, 6, 7, 8, 9, 10] : List ℚ).countP
              (fun v => decide (v ≤ quantile [1, 2, 3, 4, 5, 6, 7, 8, 9, 10] (999 / 2000))) : ℚ) /
            (([1, 2, 3, 4, 5, 6, 7, 8, 9, 10] : List ℚ).length : ℚ)| :=
  clip_field_tolerance [1, 2, 3, 4, 5, 6, 7, 8, 9, 10] (999 / 2000)
    [1, 1, 1, 1, 1, 0, 0, 0, 0, 0] (by decide)

/-! ### Claim C2: normalization invariant of `stacked_field` -/

/-- C2: for every non-degenerate combination of inputs (the accumulated
weighted sum of layers is non-empty and non-constant), the field returned
by `stacked_field` has minimum exactly 0 and maximum exactly 1 after the
min-max normalization step. -/
theorem stacked_field_normalized (n : ℕ) (layers : List (List ℚ)) (weights : List ℚ)
    (hne : accumulate n layers weights ≠ [])
    (hnd : listMin (accumulate n layers weights) < listMax (accumulate n layers weights)) :
    listMin (stacked_field n layers weights) = 0 ∧
    listMax (stacked_field n layers weights) = 1 := by
  set fld := accumulate n layers weights with hf
  set m := listMin fld with hm
  set M := listMax fld with hM
  have hmono1 : Monotone (fun v : ℚ => v - m) := fun a b hab => sub_le_sub_right hab m
  have hmin_shift : listMin (fld.map (fun v => v - m)) = m - m :=
    listMin_map_mono _ hmono1 hne
  have hmax_shift : listMax (fld.map (fun v => v - m)) = M - m :=
    listMax_map_mono _ hmono1 hne
  have hshift_ne : fld.map (fun v => v - m) ≠ [] :=
    fun hcontra => hne (List.map_eq_nil.mp hcontra)
  have hD : 0 < M - m := by linarith
  have hmono2 : Monotone (fun v : ℚ => v / (M - m)) :=
    fun a b hab => (div_le_div_right hD).mpr hab
  have hunfold : stacked_field n layers weights =
      (fld.map (fun v => v - m)).map (fun v => v / listMax (fld.map (fun v => v - m))) := rfl
  rw [hunfold, hmax_shift]
  constructor
  · rw [listMin_map_mono _ hmono2 hshift_ne, hmin_shift]
    simp
  · rw [listMax_map_mono _ hmono2 hshift_ne, hmax_shift]
    exact div_self (ne_of_gt hD)

/-- Witness for C2 at a concrete input: one layer `[0, 1]` with weight 1. -/
theorem stacked_field_normalized_witness :
    listMin (stacked_field 2 [[0, 1]] [1]) = 0 ∧
    listMax (stacked_field 2 [[0, 1]] [1]) = 1 :=
  stacked_field_normalized 2 [[0, 1]] [1] (by decide) (by decide)

/-! ### Claim C8: `shift_mean_lave` can return values above 1 -/

/-- C8: no clipping is applied after the final conditional mean-ratio
multiplication of `shift_mean_lave`, so for some input field and target
`ktmean` (here `[1, 0, 7/16, 1/2]` with `ktmean = 9/10` and the default
remaining parameters) the returned field contains a pixel value strictly
greater than 1 (`3564/2705`). -/
theorem shift_mean_lave_exceeds_one :
    ∃ (field : List ℚ) (ktmean : ℚ) (out : List ℚ),
      shift_mean_lave field ktmean (7 / 5) (1 / 5) (1 / 200) (199 / 200) = some out ∧
      ∃ v ∈ out, 1 < v := by
  refine ⟨[1, 0, 7 / 16, 1 / 2], 9 / 10, [1, 764 / 2705, 3564 / 2705, 1], by decide, ?_⟩
  exact ⟨3564 / 2705, by decide, by decide⟩

/-! ### Claim C4: `shift_mean_lave` preserves fully-clear pixels -/

/-- C4: for every input field containing a pixel equal to 1, with the
sub-unit pixels giving distinct robust min/max quantiles (and `ktmin ≤ 1`,
`max_quant ∈ [0,1]`), that pixel still has value exactly 1 in the returned
field: the linear rescale sends it to a value `≥ 1`, the clip maps it to
exactly 1, and the conditional mean multiplication skips pixels equal
to 1. -/
theorem shift_mean_lave_preserves_clear (field : List ℚ)
    (ktmean max_overshoot ktmin min_quant max_quant : ℚ)
    (i : ℕ) (hi : i < field.length) (h1 : field.getD i 0 = 1)
    (hktmin : ktmin ≤ 1) (hq0 : 0 ≤ max_quant) (hq1 : max_quant ≤ 1)
    (hqlt : quantile (subUnit field) min_quant < quantile (subUnit field) max_quant) :
    ∃ out, shift_mean_lave field ktmean max_overshoot ktmin min_quant max_quant = some out ∧
      out.getD i 0 = 1 := by
  have hsubne : subUnit field ≠ [] := by
    intro hc
    rw [hc] at hqlt
    simp [quantile, sortAsc, List.insertionSort] at hqlt
  set fmin := quantile (subUnit field) min_quant with hfmin_def
  set fmax := quantile (subUnit field) max_quant with hfmax_def
  have hall : ∀ x ∈ subUnit field, x < 1 := by
    intro x hx
    exact of_decide_eq_true (List.mem_filter.mp hx).2
  have hfmax1 : fmax < 1 :=
    lt_of_le_of_lt (quantile_bounds hsubne hq0 hq1).2 (hall _ (listMax_mem hsubne))
  have hD : 0 < fmax - fmin := sub_pos.mpr hqlt
  have hR : (smlRescaled field ktmin min_quant max_quant).getD i 0
      = (1 - fmin) / (fmax - fmin) * (1 - ktmin) + ktmin := by
    simp only [smlRescaled]
    rw [getD_map _ _ _ hi 0 0, h1]
  have hRge1 : 1 ≤ (1 - fmin) / (fmax - fmin) * (1 - ktmin) + ktmin := by
    have hratio : (1 : ℚ) ≤ (1 - fmin) / (fmax - fmin) := by
      rw [le_div_iff hD]
      linarith
    have h1k : 0 ≤ 1 - ktmin := by linarith
    nlinarith
  have hlenR : (smlRescaled field ktmin min_quant max_quant).length = field.length := by
    simp [smlRescaled]
  have hlenR1 : i < ((smlRescaled field ktmin min_quant max_quant).map
      (fun v => if 1 < v then (1 : ℚ) else v)).length := by
    rw [List.length_map, hlenR]; exact hi
  have hC : (smlClipped field ktmin min_quant max_quant).getD i 0 = 1 := by
    simp only [smlClipped]
    rw [getD_map _ _ _ hlenR1 0 0, getD_map _ _ _ (hlenR ▸ hi) 0 0, hR]
    rcases eq_or_lt_of_le hRge1 with hEq | hLt
    · rw [← hEq]
      norm_num
    · rw [if_pos hLt]
      norm_num
  have hlenC : i < (smlClipped field ktmin min_quant max_quant).length := by
    simp only [smlClipped, List.length_map, hlenR]
    exact hi
  by_cases hdiff : 0 < smlDiffSum field ktmean ktmin min_quant max_quant
  · refine ⟨(smlClipped field ktmin min_quant max_quant).map
      (fun v => if v = 1 then v else
        smlTgtMean field ktmean ktmin min_quant max_quant /
          smlCloudMean field ktmin min_quant max_quant * v), ?_, ?_⟩
    · simp only [shift_mean_lave]
      rw [if_neg hsubne, if_pos hdiff]
    · rw [getD_map _ _ _ hlenC 0 0, hC, if_pos rfl]
  · refine ⟨smlClipped field ktmin min_quant max_quant, ?_, ?_⟩
    · simp only [shift_mean_lave]
      rw [if_neg hsubne, if_neg hdiff]
    · exact hC

/-- Witness for C4 at the concrete input `[1, 0, 1/2]` (pixel 0 is clear),
with default parameters. -/
theorem shift_mean_lave_preserves_clear_witness :
    ∃ out, shift_mean_lave [1, 0, 1 / 2] (1 / 2) (7 / 5) (1 / 5) (1 / 200) (199 / 200)
        = some out ∧ out.getD 0 0 = 1 :=
  shift_mean_lave_preserves_clear [1, 0, 1 / 2] (1 / 2) (7 / 5) (1 / 5) (1 / 200) (199 / 200)
    0 (by decide) (by decide) (by decide) (by decide) (by decide) (by decide)

/-! ### Claim C3: scaling condition in `lave_scaling_exact` -/

/-- C3 counterexample: on the input `field = [0, 1, 7/57, 7/57]`,
`clear_mask = [1,0,0,0]`, `edge_mask = [false,true,false,false]`,
`ktmean = 3/4` (defaults otherwise), the required plain-cloud mean is
`1/2`, which does NOT exceed the current plain-cloud mean `9/10` — yet the
flipped cloud field IS multiplied by the ratio (because `diff_sum = 1 > 0`):
the plain-cloud pixel 2 comes out as `1/2`, not its unscaled `clouds3`
value `9/10` as the claim requires. -/
theorem lave_scaling_gate_cex :
    lave_scaling_exact [0, 1, 7 / 57, 7 / 57] [1, 0, 0, 0] [false, true, false, false]
        (3 / 4) (7 / 5) (1 / 5) (99 / 100) = some [1, 1, 1 / 2, 1 / 2] ∧
    lave_tgt_cloud_mean [0, 1, 7 / 57, 7 / 57] [1, 0, 0, 0] [false, true, false, false]
        (3 / 4) (7 / 5) (1 / 5) (99 / 100) ≤
      lave_current_cloud_mean [0, 1, 7 / 57, 7 / 57] [1, 0, 0, 0] [false, true, false, false]
        (1 / 5) (99 / 100) ∧
    ¬ (([1, 1, 1 / 2, 1 / 2] : List ℚ).getD 2 0 =
        (lave_clouds3 [0, 1, 7 / 57, 7 / 57] [1, 0, 0, 0] (1 / 5) (99 / 100)).getD 2 0) := by
  exact ⟨by decide, by decide, by decide⟩

/-- C3 (amended): in `lave_scaling_exact` the flipped cloud field is
multiplied by the ratio of the required plain-cloud mean to the current
plain-cloud mean exactly when `diff_sum` (the target sum minus the
clear-pixel sum minus the edge-pixel cloud-enhancement sum) is strictly
positive — not when the required mean exceeds the current mean — and is
left unchanged otherwise, as observed at every plain-cloud (neither clear
nor edge) pixel of the output. -/
theorem lave_scaling_gate (field clear_mask : List ℚ) (edge_mask : List Bool)
    (ktmean ktmax kt1pct max_quant : ℚ) (out : List ℚ)
    (h : lave_scaling_exact field clear_mask edge_mask ktmean ktmax kt1pct max_quant = some out)
    (i : ℕ) (hi : i < field.length)
    (hclear : ¬ (0 < clear_mask.getD i 0)) (hedge : edge_mask.getD i false = false) :
    out.getD i 0 =
      if 0 < lave_diff_sum field clear_mask edge_mask ktmean ktmax kt1pct max_quant then
        lave_tgt_cloud_mean field clear_mask edge_mask ktmean ktmax kt1pct max_quant /
          lave_current_cloud_mean field clear_mask edge_mask kt1pct max_quant *
            (lave_clouds3 field clear_mask kt1pct max_quant).getD i 0
      else (lave_clouds3 field clear_mask kt1pct max_quant).getD i 0 := by
  simp only [lave_scaling_exact] at h
  split_ifs at h with hsel
  have hout := (Option.some.inj h).symm
  subst hout
  rw [getD_range_map _ _ _ hi 0, if_neg hclear, hedge]
  simp only [Bool.false_eq_true, if_false]
  have hlen3 : i < (lave_clouds3 field clear_mask kt1pct max_quant).length := by
    simp only [lave_clouds3, List.length_map]
    exact hi
  simp only [lave_clouds4]
  split_ifs with hd
  · rw [getD_map _ _ _ hlen3 0 0]
  · rfl

/-- Witness for C3's amended theorem at the concrete counterexample input,
plain-cloud pixel 2 (where `diff_sum = 1 > 0`, so the scaled branch fires). -/
theorem lave_scaling_gate_witness :
    ([1, 1, 1 / 2, 1 / 2] : List ℚ).getD 2 0 =
      if 0 < lave_diff_sum [0, 1, 7 / 57, 7 / 57] [1, 0, 0, 0] [false, true, false, false]
          (3 / 4) (7 / 5) (1 / 5) (99 / 100) then
        lave_tgt_cloud_mean [0, 1, 7 / 57, 7 / 57] [1, 0, 0, 0] [false, true, false, false]
            (3 / 4) (7 / 5) (1 / 5) (99 / 100) /
          lave_current_cloud_mean [0, 1, 7 / 57, 7 / 57] [1, 0, 0, 0] [false, true, false, false]
            (1 / 5) (99 / 100) *
            (lave_clouds3 [0, 1, 7 / 57, 7 / 57] [1, 0, 0, 0] (1 / 5) (99 / 100)).getD 2 0
      else (lave_clouds3 [0, 1, 7 / 57, 7 / 57] [1, 0, 0, 0] (1 / 5) (99 / 100)).getD 2 0 :=
  lave_scaling_gate [0, 1, 7 / 57, 7 / 57] [1, 0, 0, 0] [false, true, false, false]
    (3 / 4) (7 / 5) (1 / 5) (99 / 100) [1, 1, 1 / 2, 1 / 2] (by decide) 2
    (by decide) (by decide) (by decide)

/-! ### Claim C6: no degenerate-denominator check in the remappers -/

/-- C6 counterexample: on `field = [0, 0]`, `clear_mask = [0, 0]`
(no clear pixels), the quantile `field_max` is 0, a denominator of the
flip step — yet `lave_scaling_exact` does not fail: it still returns a
field. -/
theorem lave_degenerate_no_failure :
    lave_field_max [0, 0] [0, 0] (99 / 100) = 0 ∧
    (lave_scaling_exact [0, 0] [0, 0] [false, false]
        (1 / 2) (7 / 5) (1 / 5) (99 / 100)).isSome = true := by
  exact ⟨by decide, by decide⟩

/-- C6 (amended): neither `shift_mean_lave` nor `lave_scaling_exact`
performs any zero-denominator check: whenever the initial quantile
selection is non-empty (the only operation whose numpy counterpart
raises), each function returns a field unconditionally — zero values of
`field_max`, `current_cloud_mean`, `nrange_c3` or pixel counts never
produce a `DegenerateDistribution` failure; the division is performed
regardless (producing non-finite values in numpy). -/
theorem remap_no_degenerate_check :
    (∀ (field clear_mask : List ℚ) (edge_mask : List Bool)
        (ktmean ktmax kt1pct max_quant : ℚ),
        lave_sel field clear_mask ≠ [] →
        (lave_scaling_exact field clear_mask edge_mask
            ktmean ktmax kt1pct max_quant).isSome = true) ∧
    (∀ (field : List ℚ) (ktmean max_overshoot ktmin min_quant max_quant : ℚ),
        subUnit field ≠ [] →
        (shift_mean_lave field ktmean max_overshoot ktmin min_quant max_quant).isSome
          = true) := by
  constructor
  · intro field cm em a b c d hsel
    simp only [lave_scaling_exact]
    rw [if_neg hsel]
    rfl
  · intro field a b c d e hsub
    simp only [shift_mean_lave]
    rw [if_neg hsub]
    split_ifs <;> rfl

/-- Witness for C6's amended theorem: both remappers return a field at
concrete inputs with non-empty quantile selections. -/
theorem remap_no_degenerate_check_witness :
    (lave_scaling_exact [0, 0] [0, 0] [false, false]
        (1 / 2) (7 / 5) (1 / 5) (99 / 100)).isSome = true ∧
    (shift_mean_lave [1, 0] (1 / 2) (7 / 5) (1 / 5) (1 / 200) (199 / 200)).isSome = true :=
  ⟨remap_no_degenerate_check.1 [0, 0] [0, 0] [false, false]
      (1 / 2) (7 / 5) (1 / 5) (99 / 100) (by decide),
   remap_no_degenerate_check.2 [1, 0] (1 / 2) (7 / 5) (1 / 5) (1 / 200) (199 / 200)
      (by decide)⟩

/-! ### Claim C5: which axes the edge map differentiates -/

/-- C5 counterexample: the 2×2 binary mask with rows `[0,0]` and `[1,1]`
has a horizontal cloud boundary, so the two-axis gradient magnitude is
nonzero at pixel `(0,0)` (the axis-0 Sobel response there is 4); but
`_find_edges` computes `np.abs(sobel(base_mask))` with scipy's default
`axis=-1`, and the derivative along the last axis of this mask is
identically zero, so the produced edge map is 0 there: its square differs
from the combined squared two-axis magnitude. -/
theorem find_edges_axis_cex :
    (find_edges (fun i _ => if i = 0 then 0 else 1) 2 2 0 0) ^ 2 ≠
      (sobel_last (fun i _ => if i = 0 then 0 else 1) 2 2 0 0) ^ 2 +
        (sobel_ax0 (fun i _ => if i = 0 then 0 else 1) 2 2 0 0) ^ 2 := by
  decide

/-- C5 (amended): for every input mask, the edge map produced by
`_find_edges` is the absolute value of the Sobel operator applied along
the last (column) axis only — the separable pair of `[-1,0,1]` column
correlation and `[1,2,1]` row smoothing equals the single 3×3 kernel
below — with no combination of both axis derivatives. -/
theorem find_edges_axis (f : ℕ → ℕ → ℚ) (m n : ℕ) (i j : ℕ) :
    find_edges f m n i j =
      |(f (reflectIdx m ((i : ℤ) - 1)) (reflectIdx n ((j : ℤ) + 1)) +
          2 * f i (reflectIdx n ((j : ℤ) + 1)) +
          f (reflectIdx m ((i : ℤ) + 1)) (reflectIdx n ((j : ℤ) + 1))) -
        (f (reflectIdx m ((i : ℤ) - 1)) (reflectIdx n ((j : ℤ) - 1)) +
          2 * f i (reflectIdx n ((j : ℤ) - 1)) +
          f (reflectIdx m ((i : ℤ) + 1)) (reflectIdx n ((j : ℤ) - 1)))| := by
  simp only [find_edges, sobel_last, smoothAx0, derivAx1]
  congr 1
  ring

/-! ### Claim C9: interpolation at matching resolution is the identity -/

theorem node_weights (m K : ℕ) (hm : 2 ≤ m) (hK : K < m) :
    (cellIdx m ((K : ℚ) / ((m : ℚ) - 1)) = K ∧
      fracPart m ((K : ℚ) / ((m : ℚ) - 1)) = 0) ∨
    (cellIdx m ((K : ℚ) / ((m : ℚ) - 1)) + 1 = K ∧
      fracPart m ((K : ℚ) / ((m : ℚ) - 1)) = 1) := by
  have hm1 : (0 : ℚ) < (m : ℚ) - 1 := by
    have h2 : (2 : ℚ) ≤ (m : ℚ) := by exact_mod_cast hm
    linarith
  have ht : ((K : ℚ) / ((m : ℚ) - 1)) * ((m : ℚ) - 1) = (K : ℚ) :=
    div_mul_cancel₀ _ (ne_of_gt hm1)
  have hcell : cellIdx m ((K : ℚ) / ((m : ℚ) - 1)) = min K (m - 2) := by
    simp only [cellIdx]
    rw [ht, Int.floor_natCast, Int.toNat_natCast]
  by_cases hKm : K ≤ m - 2
  · left
    refine ⟨by rw [hcell, min_eq_left hKm], ?_⟩
    simp only [fracPart]
    rw [ht, hcell, min_eq_left hKm, sub_self]
  · right
    have hmin : min K (m - 2) = m - 2 := min_eq_right (by omega)
    refine ⟨by rw [hcell, hmin]; omega, ?_⟩
    simp only [fracPart]
    rw [ht, hcell, hmin]
    have hKeq : K = m - 1 := by omega
    rw [hKeq, Nat.cast_sub (by omega), Nat.cast_sub (by omega)]
    push_cast
    ring

/-- C9: when `rand_size` equals `final_size` (both dimensions at least 2,
as required for linear interpolation), the interpolated field returned by
`_random_at_scale` is equal to the original coarse random grid at every
pixel: bilinear interpolation queried exactly at the source grid points is
the identity. -/
theorem random_at_scale_identity (g : ℕ → ℕ → ℚ) (r c : ℕ) (hr : 2 ≤ r) (hc : 2 ≤ c)
    (I J : ℕ) (hI : I < r) (hJ : J < c) :
    random_at_scale g r c r c I J = g I J := by
  simp only [random_at_scale, bilinear]
  rcases node_weights r I hr hI with ⟨hi, hs⟩ | ⟨hi, hs⟩ <;>
    rcases node_weights c J hc hJ with ⟨hj, hv⟩ | ⟨hj, hv⟩ <;>
    rw [hs, hv] <;> rw [hi, hj] <;> ring_nf

/-- Witness for C9 at a concrete 2×2 grid. -/
theorem random_at_scale_identity_witness :
    random_at_scale (fun a b => (a : ℚ) + 2 * (b : ℚ)) 2 2 2 2 1 0 =
      (fun a b => (a : ℚ) + 2 * (b : ℚ)) 1 0 :=
  random_at_scale_identity (fun a b => (a : ℚ) + 2 * (b : ℚ)) 2 2
    (by decide) (by decide) 1 0 (by decide) (by decide)

/-! ### Claim C10: interpolated values stay within the coarse grid's range -/

theorem cell_frac_bounds (m : ℕ) (hm : 2 ≤ m) (t : ℚ) (ht0 : 0 ≤ t) (ht1 : t ≤ 1) :
    cellIdx m t ≤ m - 2 ∧ 0 ≤ fracPart m t ∧ fracPart m t ≤ 1 := by
  have hm1 : (0 : ℚ) < (m : ℚ) - 1 := by
    have h2 : (2 : ℚ) ≤ (m : ℚ) := by exact_mod_cast hm
    linarith
  have hh0 : 0 ≤ t * ((m : ℚ) - 1) := mul_nonneg ht0 (le_of_lt hm1)
  have hh1 : t * ((m : ℚ) - 1) ≤ (m : ℚ) - 1 :=
    mul_le_of_le_one_left (le_of_lt hm1) ht1
  have hfl0 : 0 ≤ Int.floor (t * ((m : ℚ) - 1)) := Int.floor_nonneg.mpr hh0
  refine ⟨min_le_right _ _, ?_, ?_⟩
  · simp only [fracPart, cellIdx]
    rcases min_cases (Int.toNat (Int.floor (t * ((m : ℚ) - 1)))) (m - 2) with
      ⟨hmin, hle⟩ | ⟨hmin, hlt⟩
    · rw [hmin]
      have : ((Int.toNat (Int.floor (t * ((m : ℚ) - 1)))) : ℚ)
          = ((Int.floor (t * ((m : ℚ) - 1))) : ℚ) := by
        exact_mod_cast congrArg (fun z : ℤ => (z : ℚ)) (Int.toNat_of_nonneg hfl0)
      rw [this]
      linarith [Int.floor_le (t * ((m : ℚ) - 1))]
    · rw [hmin]
      have hcast : ((m - 2 : ℕ) : ℚ) = (m : ℚ) - 2 := by
        rw [Nat.cast_sub (by omega)]
        push_cast
        ring
      rw [hcast]
      have h2 : ((m : ℤ) - 1) ≤ Int.floor (t * ((m : ℚ) - 1)) := by omega
      have h3 : ((m : ℚ) - 1) ≤ t * ((m : ℚ) - 1) := by
        calc ((m : ℚ) - 1) = (((m : ℤ) - 1 : ℤ) : ℚ) := by push_cast; ring
        _ ≤ ((Int.floor (t * ((m : ℚ) - 1)) : ℤ) : ℚ) := by exact_mod_cast h2
        _ ≤ t * ((m : ℚ) - 1) := Int.floor_le _
      linarith
  · simp only [fracPart, cellIdx]
    rcases min_cases (Int.toNat (Int.floor (t * ((m : ℚ) - 1)))) (m - 2) with
      ⟨hmin, hle⟩ | ⟨hmin, hlt⟩
    · rw [hmin]
      have : ((Int.toNat (Int.floor (t * ((m : ℚ) - 1)))) : ℚ)
          = ((Int.floor (t * ((m : ℚ) - 1))) : ℚ) := by
        exact_mod_cast congrArg (fun z : ℤ => (z : ℚ)) (Int.toNat_of_nonneg hfl0)
      rw [this]
      linarith [Int.lt_floor_add_one (t * ((m : ℚ) - 1))]
    · rw [hmin]
      have hcast : ((m - 2 : ℕ) : ℚ) = (m : ℚ) - 2 := by
        rw [Nat.cast_sub (by omega)]
        push_cast
        ring
      rw [hcast]
      linarith

/-- C10: every pixel of the interpolated field returned by
`_random_at_scale` lies between any lower bound `lo` and upper bound `hi`
enclosing the coarse random grid's values (bilinear interpolation yields
convex combinations of grid values); in particular, layers interpolated
from `np.random.rand` grids, whose entries lie in `[0, 1)`, stay within
those bounds. -/
theorem random_at_scale_bounds (g : ℕ → ℕ → ℚ) (r c R C : ℕ) (lo hi : ℚ)
    (hr : 2 ≤ r) (hc : 2 ≤ c) (hR : 2 ≤ R) (hC : 2 ≤ C)
    (I J : ℕ) (hI : I < R) (hJ : J < C)
    (hg : ∀ a b, a < r → b < c → lo ≤ g a b ∧ g a b ≤ hi) :
    lo ≤ random_at_scale g r c R C I J ∧ random_at_scale g r c R C I J ≤ hi := by
  have hR1 : (0 : ℚ) < (R : ℚ) - 1 := by
    have h2 : (2 : ℚ) ≤ (R : ℚ) := by exact_mod_cast hR
    linarith
  have hC1 : (0 : ℚ) < (C : ℚ) - 1 := by
    have h2 : (2 : ℚ) ≤ (C : ℚ) := by exact_mod_cast hC
    linarith
  have htI0 : 0 ≤ (I : ℚ) / ((R : ℚ) - 1) :=
    div_nonneg (by positivity) (le_of_lt hR1)
  have htI1 : (I : ℚ) / ((R : ℚ) - 1) ≤ 1 := by
    rw [div_le_one hR1]
    have : (I : ℚ) ≤ (R : ℚ) - 1 := by
      have : (I : ℚ) + 1 ≤ (R : ℚ) := by exact_mod_cast hI
      linarith
    linarith
  have htJ0 : 0 ≤ (J : ℚ) / ((C : ℚ) - 1) :=
    div_nonneg (by positivity) (le_of_lt hC1)
  have htJ1 : (J : ℚ) / ((C : ℚ) - 1) ≤ 1 := by
    rw [div_le_one hC1]
    have : (J : ℚ) + 1 ≤ (C : ℚ) := by exact_mod_cast hJ
    linarith
  obtain ⟨hids, hs0, hs1⟩ := cell_frac_bounds r hr _ htI0 htI1
  obtain ⟨hidv, hv0, hv1⟩ := cell_frac_bounds c hc _ htJ0 htJ1
  set s := fracPart r ((I : ℚ) / ((R : ℚ) - 1)) with hs_def
  set v := fracPart c ((J : ℚ) / ((C : ℚ) - 1)) with hv_def
  set a := cellIdx r ((I : ℚ) / ((R : ℚ) - 1)) with ha_def
  set b := cellIdx c ((J : ℚ) / ((C : ℚ) - 1)) with hb_def
  have hga := hg a b (by omega) (by omega)
  have hgb := hg a (b + 1) (by omega) (by omega)
  have hgc := hg (a + 1) b (by omega) (by omega)
  have hgd := hg (a + 1) (b + 1) (by omega) (by omega)
  have hkey : random_at_scale g r c R C I J =
      (1 - s) * (1 - v) * g a b + (1 - s) * v * g a (b + 1) +
        s * (1 - v) * g (a + 1) b + s * v * g (a + 1) (b + 1) := rfl
  constructor
  · have t1 : 0 ≤ (1 - s) * (1 - v) * (g a b - lo) :=
      mul_nonneg (mul_nonneg (by linarith) (by linarith)) (by linarith [hga.1])
    have t2 : 0 ≤ (1 - s) * v * (g a (b + 1) - lo) :=
      mul_nonneg (mul_nonneg (by linarith) hv0) (by linarith [hgb.1])
    have t3 : 0 ≤ s * (1 - v) * (g (a + 1) b - lo) :=
      mul_nonneg (mul_nonneg hs0 (by linarith)) (by linarith [hgc.1])
    have t4 : 0 ≤ s * v * (g (a + 1) (b + 1) - lo) :=
      mul_nonneg (mul_nonneg hs0 hv0) (by linarith [hgd.1])
    have hexp : random_at_scale g r c R C I J - lo =
        (1 - s) * (1 - v) * (g a b - lo) + (1 - s) * v * (g a (b + 1) - lo) +
          s * (1 - v) * (g (a + 1) b - lo) + s * v * (g (a + 1) (b + 1) - lo) := by
      rw [hkey]; ring
    linarith
  · have t1 : 0 ≤ (1 - s) * (1 - v) * (hi - g a b) :=
      mul_nonneg (mul_nonneg (by linarith) (by linarith)) (by linarith [hga.2])
    have t2 : 0 ≤ (1 - s) * v * (hi - g a (b + 1)) :=
      mul_nonneg (mul_nonneg (by linarith) hv0) (by linarith [hgb.2])
    have t3 : 0 ≤ s * (1 - v) * (hi - g (a + 1) b) :=
      mul_nonneg (mul_nonneg hs0 (by linarith)) (by linarith [hgc.2])
    have t4 : 0 ≤ s * v * (hi - g (a + 1) (b + 1)) :=
      mul_nonneg (mul_nonneg hs0 hv0) (by linarith [hgd.2])
    have hexp : hi - random_at_scale g r c R C I J =
        (1 - s) * (1 - v) * (hi - g a b) + (1 - s) * v * (hi - g a (b + 1)) +
          s * (1 - v) * (hi - g (a + 1) b) + s * v * (hi - g (a + 1) (b + 1)) := by
      rw [hkey]; ring
    linarith

/-- Witness for C10 at a concrete 2×2 grid with values in `[0, 1)`,
interpolated up to 3×3. -/
theorem random_at_scale_bounds_witness :
    0 ≤ random_at_scale (fun a b => (a : ℚ) / 4 + (b : ℚ) / 2) 2 2 3 3 1 1 ∧
    random_at_scale (fun a b => (a : ℚ) / 4 + (b : ℚ) / 2) 2 2 3 3 1 1 ≤ 3 / 4 :=
  random_at_scale_bounds (fun a b => (a : ℚ) / 4 + (b : ℚ) / 2) 2 2 3 3 0 (3 / 4)
    (by decide) (by decide) (by decide) (by decide) 1 1 (by decide) (by decide)
    (by intro a b ha hb; interval_cases a <;> interval_cases b <;> norm_num)

end CloudField
